import Mathlib

/-!
Verification of the LearnFlow telemetry / progress core.

Shallow embedding of:
* `ProgressStore.recalculateAllTopics` / `getStudentProgress`
  (progress store, event-sourced replay of learning events),
* `TelemetryStore.record` / `query` (event log, in-memory index),
* `DashboardCache` (TTL cache with pattern invalidation),
* `dashboardAggregator` scoring helpers
  (`normalizeDistribution`, `computeDepthDistribution`,
   `computeComplianceScore`, `computeSystemHealthScore`).

JavaScript numbers are modelled by exact rationals (ℚ) and integers (ℤ);
JS `Map` and `Record` objects are modelled by insertion-ordered association
lists; `Date` parsing is an abstract parameter `parse : String → Option Int`
returning epoch milliseconds (`none` models `NaN`).
-/

namespace LearnFlow

/-- Association-list lookup; models JS `Map.get` / `Record` field access. -/
def mapGet {β : Type} (m : List (String × β)) (k : String) : Option β :=
  (m.find? (fun kv => kv.1 == k)).map (fun kv => kv.2)

/-- Association-list update; models JS `Map.set`: replace in place when the
key exists, otherwise append (JS maps preserve insertion order). -/
def mapSet {β : Type} (m : List (String × β)) (k : String) (v : β) : List (String × β) :=
  if (m.find? (fun kv => kv.1 == k)).isSome then
    m.map (fun kv => bif kv.1 == k then (k, v) else kv)
  else
    m ++ [(k, v)]

/-- `leadsWith p l` is true when `p` is an initial segment of `l`. -/
def leadsWith : List Char → List Char → Bool
  | [], _ => true
  | _ :: _, [] => false
  | a :: as, b :: bs => a == b && leadsWith as bs

/-- `occursIn p l` is true when `p` occurs contiguously inside `l`. -/
def occursIn (p : List Char) : List Char → Bool
  | [] => leadsWith p []
  | b :: bs => leadsWith p (b :: bs) || occursIn p bs

/-- Models JS `String.prototype.includes`. -/
def strIncludes (s pat : String) : Bool :=
  occursIn pat.toList s.toList

/-! ### Progress engine data model (`types.ts`, progress store) -/

inductive DepthLevel
  | Core
  | Applied
  | Mastery
deriving DecidableEq

inductive TaskType
  | Learning
  | Assignment
deriving DecidableEq

inductive ConfidenceTrend
  | improving
  | stable
  | declining
deriving DecidableEq

structure LearningEvent where
  studentId : String
  topic : String
  depth : DepthLevel
  taskType : TaskType
  reasoningQuality : ℚ
  success : Bool
  mistakePatterns : List String
  timeSpent : ℚ
  timestamp : String
deriving DecidableEq

structure DepthAttempts where
  Core : Nat
  Applied : Nat
  Mastery : Nat
deriving DecidableEq

structure TopicProgress where
  topic : String
  masteryLevel : Int
  confidenceTrend : ConfidenceTrend
  errorFrequency : List (String × Nat)
  lastInteraction : String
  depthProgress : DepthLevel
  reasoningAverage : ℚ
  attemptCount : Nat
  depthAttempts : DepthAttempts
  masteryHistory : List Int
deriving DecidableEq

/-- Depth-dependent success delta from the `switch (depth)` arms. -/
def masteryDelta : DepthLevel → Int
  | .Core => 10
  | .Applied => 15
  | .Mastery => 25

/-- Mastery update of one event: `min(100, m + delta)` on success,
`max(0, m - 5)` on failure. -/
def masteryStep (m : Int) (e : LearningEvent) : Int :=
  if e.success then min 100 (m + masteryDelta e.depth) else max 0 (m - 5)

/-- `depthProgress` update of one event: an Applied or Mastery success
assigns that depth unconditionally; everything else leaves it unchanged. -/
def depthStep (d : DepthLevel) (e : LearningEvent) : DepthLevel :=
  if e.success then
    match e.depth with
    | .Core => d
    | .Applied => .Applied
    | .Mastery => .Mastery
  else d

/-- `errorFrequency[pattern] = (errorFrequency[pattern] || 0) + 1`. -/
def bumpPattern (ef : List (String × Nat)) (p : String) : List (String × Nat) :=
  match mapGet ef p with
  | some n => mapSet ef p (n + 1)
  | none => mapSet ef p 1

/-- `depthAttempts[depth] = (depthAttempts[depth] || 0) + 1`. -/
def bumpDepthAttempt (da : DepthAttempts) : DepthLevel → DepthAttempts
  | .Core => { da with Core := da.Core + 1 }
  | .Applied => { da with Applied := da.Applied + 1 }
  | .Mastery => { da with Mastery := da.Mastery + 1 }

/-- The fresh per-topic record created when a topic is first seen during
replay (`recalculateAllTopics`, lines 202–215). -/
def freshTopicProgress (topic timestamp : String) : TopicProgress where
  topic := topic
  masteryLevel := 0
  confidenceTrend := .stable
  errorFrequency := []
  lastInteraction := timestamp
  depthProgress := .Core
  reasoningAverage := 0
  attemptCount := 0
  depthAttempts := ⟨0, 0, 0⟩
  masteryHistory := []

/-- Effect of one learning event on one topic record
(`recalculateAllTopics`, lines 217–248). -/
def applyEvent (tp : TopicProgress) (e : LearningEvent) : TopicProgress :=
  let attempts := tp.attemptCount + 1
  let newMastery := masteryStep tp.masteryLevel e
  { topic := tp.topic
    masteryLevel := newMastery
    confidenceTrend := tp.confidenceTrend
    errorFrequency := e.mistakePatterns.foldl bumpPattern tp.errorFrequency
    lastInteraction := e.timestamp
    depthProgress := depthStep tp.depthProgress e
    reasoningAverage :=
      (tp.reasoningAverage * ((attempts : ℚ) - 1) + e.reasoningQuality) / (attempts : ℚ)
    attemptCount := attempts
    depthAttempts := bumpDepthAttempt tp.depthAttempts e.depth
    masteryHistory := tp.masteryHistory ++ [newMastery] }

/-- One step of the topic-map fold inside `recalculateAllTopics`. -/
def replayFold (m : List (String × TopicProgress)) (e : LearningEvent) :
    List (String × TopicProgress) :=
  match mapGet m e.topic with
  | some tp => mapSet m e.topic (applyEvent tp e)
  | none => mapSet m e.topic (applyEvent (freshTopicProgress e.topic e.timestamp) e)

/-- Mean of an integer list as a rational (JS number division). -/
def avgInt (l : List Int) : ℚ :=
  ((l.sum : Int) : ℚ) / (l.length : ℚ)

/-- `calculateConfidenceTrend`: compare the mean of `history.slice(-5)`
with the mean of `history.slice(-10, -5)`. -/
def calculateConfidenceTrend (history : List Int) : ConfidenceTrend :=
  let recent := history.drop (history.length - 5)
  let older := (history.take (history.length - 5)).drop (history.length - 10)
  if older.length = 0 then .stable
  else
    let delta := avgInt recent - avgInt older
    if delta > 5 then .improving
    else if delta < -5 then .declining
    else .stable

/-- Second pass of `recalculateAllTopics`: recompute `confidenceTrend`
once `masteryHistory` has at least 3 entries. -/
def applyTrendPass (tp : TopicProgress) : TopicProgress :=
  if 3 ≤ tp.masteryHistory.length then
    { tp with confidenceTrend := calculateConfidenceTrend tp.masteryHistory }
  else tp

/-- `ProgressStore.recalculateAllTopics`: replay the ordered event list into
per-topic records, then apply the confidence-trend pass, returning the
topic records in insertion order. -/
def recalculateAllTopics (events : List LearningEvent) : List TopicProgress :=
  ((events.foldl replayFold []).map (fun kv => kv.2)).map applyTrendPass

/-- `ProgressStore.calculateOverallMastery`. -/
def calculateOverallMastery (topics : List TopicProgress) : Int :=
  if topics.length = 0 then 0
  else round ((((topics.map (fun tp => tp.masteryLevel)).sum : Int) : ℚ) / (topics.length : ℚ))

structure StudentProgress where
  studentId : String
  topics : List TopicProgress
  overallMastery : Int
  totalInteractions : Nat
  lastActivity : String
  createdAt : String
deriving DecidableEq

/-- In-memory state of a `ProgressStore`: the `students` and `events` maps. -/
structure ProgressStoreState where
  students : List (String × StudentProgress)
  events : List (String × List LearningEvent)
deriving DecidableEq

/-- `ProgressStore.getStudentProgress`: rebuild the student's progress by
replaying the stored event list; the stored maps are not modified. -/
def getStudentProgress (st : ProgressStoreState) (sid : String) : Option StudentProgress :=
  match mapGet st.students sid with
  | none => none
  | some progress =>
    let events := (mapGet st.events sid).getD []
    let topics := recalculateAllTopics events
    some { progress with
      topics := topics
      overallMastery := calculateOverallMastery topics
      totalInteractions := events.length
      lastActivity :=
        if 0 < events.length then
          ((events.getLast?).map (fun e => e.timestamp)).getD progress.lastActivity
        else progress.lastActivity }

/-- `getStudentProgress` as a state-passing computation: the source method
reads `this.students` / `this.events` but never writes them, so the
resulting state is the input state. -/
def getStudentProgressRun (st : ProgressStoreState) (sid : String) :
    Option StudentProgress × ProgressStoreState :=
  (getStudentProgress st sid, st)

/-- Rank of a depth level: Core 0, Applied 1, Mastery 2. -/
def depthRank : DepthLevel → Nat
  | .Core => 0
  | .Applied => 1
  | .Mastery => 2

/-! ### Telemetry store (`telemetryStore.ts`) -/

inductive TKind
  | interaction
  | assignment
  | ethics
  | privacy
  | system_error
deriving DecidableEq

/-- A telemetry event; the `kind`-specific payload fields are irrelevant to
`record` / `query` control flow and are kept as an opaque association list. -/
structure TelemetryEvent where
  kind : TKind
  timestamp : String
  actor_hash : Option String
  payload : List (String × String)
deriving DecidableEq

/-- The in-memory index `this.events` of a `TelemetryStore`. -/
structure TelemetryState where
  events : List TelemetryEvent
deriving DecidableEq

structure CacheEntry (α : Type) where
  value : α
  expiresAt : Int
deriving DecidableEq

/-- `DashboardCache`: the `store` map from cache key to entry. -/
structure Cache (α : Type) where
  entries : List (String × CacheEntry α)
deriving DecidableEq

/-- `DashboardCache.getCachedMetrics`: `null` on a miss; an entry past its
`expiresAt` is deleted and reported as a miss. -/
def getCachedMetrics {α : Type} (now : Int) (c : Cache α) (key : String) :
    Option α × Cache α :=
  match mapGet c.entries key with
  | none => (none, c)
  | some entry =>
    if entry.expiresAt < now then
      (none, ⟨c.entries.filter (fun kv => !(kv.1 == key))⟩)
    else
      (some entry.value, c)

/-- `DashboardCache.setCachedMetrics`. -/
def setCachedMetrics {α : Type} (now : Int) (c : Cache α) (key : String)
    (metrics : α) (ttlMs : Int) : Cache α :=
  ⟨mapSet c.entries key ⟨metrics, now + max 0 ttlMs⟩⟩

/-- `DashboardCache.invalidateCache`: delete every entry whose key contains
the pattern as a substring. -/
def invalidateCache {α : Type} (c : Cache α) (pat : String) : Cache α :=
  ⟨c.entries.filter (fun kv => !(strIncludes kv.1 pat))⟩

/-- The dashboard namespace pattern passed by `TelemetryStore.record`. -/
def dashNS : String := "dashboard:"

/-- `TelemetryStore.record` restricted to its in-memory effect: drop the
event silently when its timestamp does not parse or is older than the
retention cutoff; otherwise push it onto the index and invalidate every
dashboard-prefixed cache entry. `parse` abstracts `new Date(s).getTime()`
(`none` = `NaN`) and `cutoff` abstracts the retention cutoff instant. -/
def record {α : Type} (parse : String → Option Int) (cutoff : Int)
    (st : TelemetryState) (c : Cache α) (e : TelemetryEvent) :
    TelemetryState × Cache α :=
  match parse e.timestamp with
  | none => (st, c)
  | some ms =>
    if ms < cutoff then (st, c)
    else (⟨st.events ++ [e]⟩, invalidateCache c dashNS)

/-- The kind filter of `query`: with no filter every kind passes; with a
filter the event's kind must be listed (`opts.kind.includes(evt.kind)`). -/
def kindMatches (kinds : Option (List TKind)) (k : TKind) : Bool :=
  match kinds with
  | none => true
  | some ks => ks.contains k

/-- The per-event predicate of `TelemetryStore.query`: kind filter plus
inclusive timestamp range check; an unparsable timestamp (`NaN`) fails the
range comparison. -/
def queryKeep (parse : String → Option Int) (fromMs toMs : Int)
    (kinds : Option (List TKind)) (e : TelemetryEvent) : Bool :=
  kindMatches kinds e.kind &&
    match parse e.timestamp with
    | none => false
    | some ms => decide (fromMs ≤ ms) && decide (ms ≤ toMs)

/-- `TelemetryStore.query`: scan the in-memory index with `queryKeep`. -/
def query (parse : String → Option Int) (fromMs toMs : Int)
    (kinds : Option (List TKind)) (st : TelemetryState) : List TelemetryEvent :=
  st.events.filter (queryKeep parse fromMs toMs kinds)

/-! ### Dashboard aggregator (`dashboardAggregator.ts`) -/

structure DepthDistribution where
  Core : ℚ
  Applied : ℚ
  Mastery : ℚ
deriving DecidableEq

def depthEmpty : DepthDistribution := ⟨0, 0, 0⟩

structure InteractionDepth where
  depth_level : DepthLevel
deriving DecidableEq

/-- One step of the counting loop of `computeDepthDistribution`:
`out[e.depth_level] += 1`. -/
def depthBump (out : DepthDistribution) (e : InteractionDepth) : DepthDistribution :=
  match e.depth_level with
  | .Core => { out with Core := out.Core + 1 }
  | .Applied => { out with Applied := out.Applied + 1 }
  | .Mastery => { out with Mastery := out.Mastery + 1 }

/-- `computeDepthDistribution`: count interactions per depth level. -/
def computeDepthDistribution (events : List InteractionDepth) : DepthDistribution :=
  events.foldl depthBump depthEmpty

def distTotal (d : DepthDistribution) : ℚ :=
  d.Core + d.Applied + d.Mastery

/-- `Number(x.toFixed(3))`: round to 3 decimal places (ties away from zero
for the nonnegative shares that occur here). -/
def toFixed3 (x : ℚ) : ℚ :=
  ((round (x * 1000) : Int) : ℚ) / 1000

/-- `normalizeDistribution`: divide each count by the total and round each
share to 3 decimal places; a zero total returns the input unchanged. -/
def normalizeDistribution (d : DepthDistribution) : DepthDistribution :=
  if distTotal d = 0 then d
  else
    ⟨toFixed3 (d.Core / distTotal d),
     toFixed3 (d.Applied / distTotal d),
     toFixed3 (d.Mastery / distTotal d)⟩

structure EthicsMetric where
  cheatingDetected : ℚ
  promptModifications : ℚ
  assignmentEnforcements : ℚ
  privacyAlerts : ℚ
deriving DecidableEq

structure SystemHealthMetric where
  uptime : ℚ
  averageResponseTime : ℚ
  errorRate : ℚ
  activeBugs : ℚ
deriving DecidableEq

/-- The weighted severity sum of `computeComplianceScore`. -/
def complianceSeverity (ethics : EthicsMetric) : ℚ :=
  ethics.cheatingDetected * 2 + ethics.privacyAlerts * 3 +
    ethics.assignmentEnforcements + ethics.promptModifications

/-- The per-interaction severity rate, dividing by `max(1, totalInteractions)`. -/
def complianceRate (ethics : EthicsMetric) (totalInteractions : ℚ) : ℚ :=
  complianceSeverity ethics / max 1 totalInteractions

/-- `computeComplianceScore`: `100 - min(100, rate * 200)`, rounded and
clamped to `[0, 100]`. -/
def computeComplianceScore (ethics : EthicsMetric) (totalInteractions : ℚ) : Int :=
  max 0 (min 100 (round (100 - min 100 (complianceRate ethics totalInteractions * 200))))

/-- `computeSystemHealthScore`: start at 100, subtract individually capped
penalty terms, round, clamp to `[0, 100]`. -/
def computeSystemHealthScore (health : SystemHealthMetric) : Int :=
  let errorPenalty := min 60 (health.errorRate * 100 * 10)
  let latencyPenalty := min 30 (health.averageResponseTime / 100)
  let bugPenalty := min 20 (health.activeBugs * 2)
  max 0 (min 100 (round (100 - errorPenalty - latencyPenalty - bugPenalty)))

/-! ### Association-list lemmas -/

theorem find?_map_update {β : Type} (k : String) (v : β) :
    ∀ m : List (String × β),
      (m.map (fun kv => bif kv.1 == k then (k, v) else kv)).find? (fun kv => kv.1 == k)
        = (m.find? (fun kv => kv.1 == k)).map (fun _ => (k, v)) := by
  intro m
  induction m with
  | nil => rfl
  | cons kv m ih =>
    cases h : (kv.1 == k) with
    | true =>
      simp only [List.map_cons, h, cond_true, List.find?_cons, beq_self_eq_true,
        Option.map_some']
    | false =>
      simp only [List.map_cons, h, cond_false, List.find?_cons, ih]

theorem find?_map_update_ne {β : Type} (k k' : String) (h : k' ≠ k) (v : β) :
    ∀ m : List (String × β),
      (m.map (fun kv => bif kv.1 == k then (k, v) else kv)).find? (fun kv => kv.1 == k')
        = m.find? (fun kv => kv.1 == k') := by
  intro m
  induction m with
  | nil => rfl
  | cons kv m ih =>
    cases hk : (kv.1 == k) with
    | true =>
      have hkk : kv.1 = k := by simpa using hk
      have h1 : (((k, v) : String × β).1 == k') = false := by
        simp only [beq_eq_false_iff_ne, ne_eq]
        exact fun hc => h hc.symm
      have h2 : (kv.1 == k') = false := by
        simp only [beq_eq_false_iff_ne, ne_eq, hkk]
        exact fun hc => h hc.symm
      simp only [List.map_cons, hk, cond_true, List.find?_cons, h1, h2, ih]
    | false =>
      cases hk' : (kv.1 == k') with
      | true => simp only [List.map_cons, hk, cond_false, List.find?_cons, hk']
      | false => simp only [List.map_cons, hk, cond_false, List.find?_cons, hk', ih]

theorem mapGet_some_mem {β : Type} {m : List (String × β)} {k : String} {v : β}
    (h : mapGet m k = some v) : ∃ kv ∈ m, kv.2 = v := by
  unfold mapGet at h
  rcases Option.map_eq_some'.mp h with ⟨kv, hfind, hv⟩
  exact ⟨kv, List.mem_of_find?_eq_some hfind, hv⟩

theorem mapGet_mapSet_self {β : Type} (m : List (String × β)) (k : String) (v : β) :
    mapGet (mapSet m k v) k = some v := by
  unfold mapGet mapSet
  by_cases h : (m.find? (fun kv => kv.1 == k)).isSome
  · rw [if_pos h, find?_map_update]
    rcases Option.isSome_iff_exists.mp h with ⟨kv, hkv⟩
    rw [hkv]
    rfl
  · rw [if_neg h, List.find?_append]
    rw [Option.not_isSome_iff_eq_none.mp h]
    simp

theorem mapGet_mapSet_ne {β : Type} (m : List (String × β)) (k k' : String) (v : β)
    (h : k' ≠ k) : mapGet (mapSet m k v) k' = mapGet m k' := by
  unfold mapGet mapSet
  by_cases hs : (m.find? (fun kv => kv.1 == k)).isSome
  · rw [if_pos hs, find?_map_update_ne _ _ h]
  · rw [if_neg hs, List.find?_append]
    have hne : (((k, v) : String × β).1 == k') = false := by
      simp only [beq_eq_false_iff_ne, ne_eq]
      exact fun hc => h hc.symm
    simp only [List.find?_cons, hne, List.find?_nil, Option.or_none]

theorem mem_mapSet {β : Type} (m : List (String × β)) (k : String) (v : β)
    (kv : String × β) (h : kv ∈ mapSet m k v) : kv ∈ m ∨ kv.2 = v := by
  unfold mapSet at h
  by_cases hs : (m.find? (fun x => x.1 == k)).isSome
  · rw [if_pos hs] at h
    rcases List.mem_map.mp h with ⟨a, ha, hav⟩
    cases hk : (a.1 == k) with
    | true =>
      right
      rw [hk, cond_true] at hav
      rw [← hav]
    | false =>
      left
      rw [hk, cond_false] at hav
      rw [← hav]
      exact ha
  · rw [if_neg hs] at h
    rcases List.mem_append.mp h with h | h
    · exact Or.inl h
    · right
      rw [List.mem_singleton.mp h]

/-! ### Replay-fold lemmas -/

theorem mapGet_replayFold_ne (m : List (String × TopicProgress)) (e : LearningEvent)
    (k : String) (h : k ≠ e.topic) : mapGet (replayFold m e) k = mapGet m k := by
  unfold replayFold
  cases hf : mapGet m e.topic with
  | none => exact mapGet_mapSet_ne _ _ _ _ h
  | some tp => exact mapGet_mapSet_ne _ _ _ _ h

theorem mapGet_replayFold_hit (m : List (String × TopicProgress)) (e : LearningEvent)
    (tp : TopicProgress) (h : mapGet m e.topic = some tp) :
    mapGet (replayFold m e) e.topic = some (applyEvent tp e) := by
  unfold replayFold
  rw [h]
  exact mapGet_mapSet_self _ _ _

/-- Invariant preservation along the topic-map fold of `recalculateAllTopics`:
any per-topic property preserved by `applyEvent` and established on the
fresh record holds for every value in the final map. -/
theorem replay_foldInv (P : TopicProgress → Prop) (cond : LearningEvent → Prop)
    (hfresh : ∀ t ts e, cond e → P (applyEvent (freshTopicProgress t ts) e))
    (hstep : ∀ tp e, cond e → P tp → P (applyEvent tp e)) :
    ∀ (events : List LearningEvent) (m : List (String × TopicProgress)),
      (∀ e ∈ events, cond e) → (∀ kv ∈ m, P kv.2) →
      ∀ kv ∈ events.foldl replayFold m, P kv.2 := by
  intro events
  induction events with
  | nil =>
    intro m _ hm kv hkv
    exact hm kv hkv
  | cons e es ih =>
    intro m hc hm kv hkv
    have hce : cond e := hc e (List.mem_cons_self _ _)
    refine ih (replayFold m e) (fun x hx => hc x (List.mem_cons_of_mem _ hx)) ?_ kv hkv
    intro kv' hkv'
    unfold replayFold at hkv'
    cases hf : mapGet m e.topic with
    | none =>
      rw [hf] at hkv'
      rcases mem_mapSet _ _ _ _ hkv' with h | h
      · exact hm _ h
      · rw [h]
        exact hfresh _ _ _ hce
    | some tp =>
      rw [hf] at hkv'
      rcases mem_mapSet _ _ _ _ hkv' with h | h
      · exact hm _ h
      · rw [h]
        rcases mapGet_some_mem hf with ⟨a, ha, hav⟩
        exact hstep _ _ hce (hav ▸ hm a ha)

/-! ### Mastery-step lemmas -/

theorem applyEvent_masteryLevel (tp : TopicProgress) (e : LearningEvent) :
    (applyEvent tp e).masteryLevel = masteryStep tp.masteryLevel e := rfl

theorem applyEvent_masteryHistory (tp : TopicProgress) (e : LearningEvent) :
    (applyEvent tp e).masteryHistory = tp.masteryHistory ++ [masteryStep tp.masteryLevel e] := rfl

theorem applyEvent_depthProgress (tp : TopicProgress) (e : LearningEvent) :
    (applyEvent tp e).depthProgress = depthStep tp.depthProgress e := rfl

theorem masteryDelta_pos (d : DepthLevel) : 0 < masteryDelta d := by
  cases d <;> simp [masteryDelta]

theorem masteryStep_bounds (m : Int) (e : LearningEvent) (h0 : 0 ≤ m) (h1 : m ≤ 100) :
    0 ≤ masteryStep m e ∧ masteryStep m e ≤ 100 := by
  unfold masteryStep
  have hd := masteryDelta_pos e.depth
  split
  · constructor
    · exact le_min (by norm_num) (by linarith)
    · exact min_le_left _ _
  · constructor
    · exact le_max_left _ _
    · have : max 0 (m - 5) ≤ m := max_le h0 (by linarith)
      linarith

theorem masteryStep_le_of_success (m : Int) (e : LearningEvent)
    (hs : e.success = true) (h1 : m ≤ 100) : m ≤ masteryStep m e := by
  unfold masteryStep
  rw [hs, if_pos rfl]
  have hd := masteryDelta_pos e.depth
  exact le_min h1 (by linarith)

theorem masteryStep_ge_of_failure (m : Int) (e : LearningEvent)
    (hs : e.success = false) (h0 : 0 ≤ m) : masteryStep m e ≤ m := by
  unfold masteryStep
  rw [hs]
  simp only [Bool.false_eq_true, if_false]
  exact max_le h0 (by linarith)

theorem applyTrendPass_masteryHistory (tp : TopicProgress) :
    (applyTrendPass tp).masteryHistory = tp.masteryHistory := by
  unfold applyTrendPass
  split <;> rfl

theorem applyTrendPass_masteryLevel (tp : TopicProgress) :
    (applyTrendPass tp).masteryLevel = tp.masteryLevel := by
  unfold applyTrendPass
  split <;> rfl

theorem getLast?_mem {γ : Type} {l : List γ} {a : γ} (h : l.getLast? = some a) : a ∈ l := by
  induction l with
  | nil => cases h
  | cons b l ih =>
    cases l with
    | nil =>
      rw [List.getLast?_singleton] at h
      rw [Option.some_inj.mp h]
      exact List.mem_singleton_self _
    | cons c l =>
      rw [List.getLast?_cons_cons] at h
      exact List.mem_cons_of_mem _ (ih h)

/-! ### Replay invariants for mastery bounds and monotonicity -/

theorem replay_bounds_inv (events : List LearningEvent) :
    ∀ kv ∈ events.foldl replayFold [],
      ((0 ≤ kv.2.masteryLevel ∧ kv.2.masteryLevel ≤ 100)
        ∧ ∀ x ∈ kv.2.masteryHistory, 0 ≤ x ∧ x ≤ 100) := by
  refine replay_foldInv
    (fun tp => (0 ≤ tp.masteryLevel ∧ tp.masteryLevel ≤ 100)
      ∧ ∀ x ∈ tp.masteryHistory, 0 ≤ x ∧ x ≤ 100)
    (fun _ => True) ?_ ?_ events [] (fun _ _ => trivial) (fun kv hkv => absurd hkv (by simp))
  · intro t ts e _
    have hb := masteryStep_bounds 0 e le_rfl (by norm_num)
    refine ⟨hb, ?_⟩
    intro x hx
    rw [applyEvent_masteryHistory] at hx
    simp only [freshTopicProgress, List.nil_append, List.mem_singleton] at hx
    rw [hx]
    exact hb
  · intro tp e _ hP
    have hb := masteryStep_bounds tp.masteryLevel e hP.1.1 hP.1.2
    refine ⟨hb, ?_⟩
    intro x hx
    rw [applyEvent_masteryHistory] at hx
    rcases List.mem_append.mp hx with hx | hx
    · exact hP.2 x hx
    · rw [List.mem_singleton.mp hx]
      exact hb

theorem replay_mono_inv (events : List LearningEvent)
    (hs : ∀ e ∈ events, e.success = true) :
    ∀ kv ∈ events.foldl replayFold [],
      ((0 ≤ kv.2.masteryLevel ∧ kv.2.masteryLevel ≤ 100)
        ∧ List.Chain' (· ≤ ·) kv.2.masteryHistory
        ∧ ∀ x ∈ kv.2.masteryHistory, x ≤ kv.2.masteryLevel) := by
  refine replay_foldInv
    (fun tp => (0 ≤ tp.masteryLevel ∧ tp.masteryLevel ≤ 100)
      ∧ List.Chain' (· ≤ ·) tp.masteryHistory
      ∧ ∀ x ∈ tp.masteryHistory, x ≤ tp.masteryLevel)
    (fun e => e.success = true) ?_ ?_ events [] hs (fun kv hkv => absurd hkv (by simp))
  · intro t ts e _
    have hb := masteryStep_bounds 0 e le_rfl (by norm_num)
    refine ⟨hb, ?_, ?_⟩
    · rw [applyEvent_masteryHistory]
      simp [freshTopicProgress]
    · intro x hx
      rw [applyEvent_masteryHistory] at hx
      simp only [freshTopicProgress, List.nil_append, List.mem_singleton] at hx
      rw [hx, applyEvent_masteryLevel]
      exact le_rfl
  · intro tp e hce hP
    obtain ⟨⟨h0, h1⟩, hchain, hle⟩ := hP
    have hb := masteryStep_bounds tp.masteryLevel e h0 h1
    have hstep := masteryStep_le_of_success tp.masteryLevel e hce h1
    refine ⟨hb, ?_, ?_⟩
    · rw [applyEvent_masteryHistory]
      rw [List.chain'_append]
      refine ⟨hchain, List.chain'_singleton _, ?_⟩
      intro x hx y hy
      simp only [List.head?_cons, Option.mem_def, Option.some_inj] at hy
      have hxm : x ∈ tp.masteryHistory := getLast?_mem hx
      rw [← hy]
      exact le_trans (hle x hxm) hstep
    · intro x hx
      rw [applyEvent_masteryHistory] at hx
      rw [applyEvent_masteryLevel]
      rcases List.mem_append.mp hx with hx | hx
      · exact le_trans (hle x hx) hstep
      · rw [List.mem_singleton.mp hx]

theorem replay_anti_inv (events : List LearningEvent)
    (hs : ∀ e ∈ events, e.success = false) :
    ∀ kv ∈ events.foldl replayFold [],
      ((0 ≤ kv.2.masteryLevel ∧ kv.2.masteryLevel ≤ 100)
        ∧ List.Chain' (fun a b => b ≤ a) kv.2.masteryHistory
        ∧ ∀ x ∈ kv.2.masteryHistory, kv.2.masteryLevel ≤ x) := by
  refine replay_foldInv
    (fun tp => (0 ≤ tp.masteryLevel ∧ tp.masteryLevel ≤ 100)
      ∧ List.Chain' (fun a b => b ≤ a) tp.masteryHistory
      ∧ ∀ x ∈ tp.masteryHistory, tp.masteryLevel ≤ x)
    (fun e => e.success = false) ?_ ?_ events [] hs (fun kv hkv => absurd hkv (by simp))
  · intro t ts e _
    have hb := masteryStep_bounds 0 e le_rfl (by norm_num)
    refine ⟨hb, ?_, ?_⟩
    · rw [applyEvent_masteryHistory]
      simp [freshTopicProgress]
    · intro x hx
      rw [applyEvent_masteryHistory] at hx
      simp only [freshTopicProgress, List.nil_append, List.mem_singleton] at hx
      rw [hx, applyEvent_masteryLevel]
      exact le_rfl
  · intro tp e hce hP
    obtain ⟨⟨h0, h1⟩, hchain, hle⟩ := hP
    have hb := masteryStep_bounds tp.masteryLevel e h0 h1
    have hstep := masteryStep_ge_of_failure tp.masteryLevel e hce h0
    refine ⟨hb, ?_, ?_⟩
    · rw [applyEvent_masteryHistory]
      rw [List.chain'_append]
      refine ⟨hchain, List.chain'_singleton _, ?_⟩
      intro x hx y hy
      simp only [List.head?_cons, Option.mem_def, Option.some_inj] at hy
      have hxm : x ∈ tp.masteryHistory := getLast?_mem hx
      rw [← hy]
      exact le_trans hstep (hle x hxm)
    · intro x hx
      rw [applyEvent_masteryHistory] at hx
      rw [applyEvent_masteryLevel]
      rcases List.mem_append.mp hx with hx | hx
      · exact le_trans hstep (hle x hx)
      · rw [List.mem_singleton.mp hx]

/-- Every topic record returned by `recalculateAllTopics` is the trend-pass
image of a value of the replay fold. -/
theorem mem_recalculateAllTopics {events : List LearningEvent} {tp : TopicProgress}
    (h : tp ∈ recalculateAllTopics events) :
    ∃ kv ∈ events.foldl replayFold [], tp = applyTrendPass kv.2 := by
  unfold recalculateAllTopics at h
  rcases List.mem_map.mp h with ⟨tp', htp', h2⟩
  rcases List.mem_map.mp htp' with ⟨kv, hkv, h3⟩
  exact ⟨kv, hkv, by rw [← h2, ← h3]⟩

/-! ### Depth-progress rank lemmas -/

theorem depthRank_applyEvent (tp : TopicProgress) (e : LearningEvent)
    (h : 1 ≤ depthRank tp.depthProgress) :
    1 ≤ depthRank (applyEvent tp e).depthProgress := by
  rw [applyEvent_depthProgress]
  unfold depthStep
  split
  · cases e.depth with
    | Core => exact h
    | Applied => simp [depthRank]
    | Mastery => simp [depthRank]
  · exact h

theorem mapGet_replayFold_rank (e : LearningEvent) (k : String)
    (m : List (String × TopicProgress)) (tp : TopicProgress)
    (h1 : mapGet m k = some tp) (h3 : 1 ≤ depthRank tp.depthProgress) :
    ∃ tp2, mapGet (replayFold m e) k = some tp2 ∧ 1 ≤ depthRank tp2.depthProgress := by
  by_cases hk : k = e.topic
  · subst hk
    exact ⟨applyEvent tp e, mapGet_replayFold_hit m e tp h1, depthRank_applyEvent tp e h3⟩
  · exact ⟨tp, by rw [mapGet_replayFold_ne m e k hk, h1], h3⟩

theorem rank_preserved_fold (extra : List LearningEvent) :
    ∀ (m : List (String × TopicProgress)) (k : String) (tp tp' : TopicProgress),
      mapGet m k = some tp → 1 ≤ depthRank tp.depthProgress →
      mapGet (extra.foldl replayFold m) k = some tp' →
      1 ≤ depthRank tp'.depthProgress := by
  induction extra with
  | nil =>
    intro m k tp tp' h1 h3 h2
    rw [List.foldl_nil] at h2
    rw [h1] at h2
    rw [← Option.some_inj.mp h2]
    exact h3
  | cons e es ih =>
    intro m k tp tp' h1 h3 h2
    rw [List.foldl_cons] at h2
    rcases mapGet_replayFold_rank e k m tp h1 h3 with ⟨tp2, h4, h5⟩
    exact ih (replayFold m e) k tp2 tp' h4 h5 h2

/-! ### Telemetry query and cache lemmas -/

theorem queryKeep_iff (parse : String → Option Int) (fromMs toMs : Int)
    (kinds : Option (List TKind)) (e : TelemetryEvent) :
    queryKeep parse fromMs toMs kinds e = true ↔
      kindMatches kinds e.kind = true
        ∧ ∃ ms, parse e.timestamp = some ms ∧ fromMs ≤ ms ∧ ms ≤ toMs := by
  unfold queryKeep
  cases hp : parse e.timestamp with
  | none => simp [hp]
  | some ms => simp [hp, and_assoc]

theorem find?_filter_out {β : Type} (key pat : String)
    (h : strIncludes key pat = true) :
    ∀ l : List (String × β),
      (l.filter (fun kv => !(strIncludes kv.1 pat))).find? (fun kv => kv.1 == key)
        = none := by
  intro l
  induction l with
  | nil => rfl
  | cons kv l ih =>
    cases hs : strIncludes kv.1 pat with
    | true => simp [List.filter_cons, hs, ih]
    | false =>
      have hne : (kv.1 == key) = false := by
        simp only [beq_eq_false_iff_ne, ne_eq]
        intro hc
        rw [hc] at hs
        rw [h] at hs
        cases hs
      simp [List.filter_cons, hs, List.find?_cons, hne, ih]

theorem find?_filter_keep {β : Type} (key pat : String)
    (h : strIncludes key pat = false) :
    ∀ l : List (String × β),
      (l.filter (fun kv => !(strIncludes kv.1 pat))).find? (fun kv => kv.1 == key)
        = l.find? (fun kv => kv.1 == key) := by
  intro l
  induction l with
  | nil => rfl
  | cons kv l ih =>
    cases hk : (kv.1 == key) with
    | true =>
      have hkk : kv.1 = key := by simpa using hk
      have hs : strIncludes kv.1 pat = false := by rw [hkk, h]
      simp [List.filter_cons, hs, List.find?_cons, hk]
    | false =>
      cases hs : strIncludes kv.1 pat with
      | true => simp [List.filter_cons, hs, List.find?_cons, hk, ih]
      | false =>
        simp [List.filter_cons, hs, List.find?_cons, hk, ih]

/-! ### Aggregator lemmas -/

theorem toFixed3_close (x : ℚ) : |toFixed3 x - x| ≤ 1 / 2000 := by
  have h := abs_sub_round (x * 1000)
  have hx : toFixed3 x - x = (((round (x * 1000) : Int) : ℚ) - x * 1000) / 1000 := by
    unfold toFixed3
    ring
  rw [hx, abs_div, abs_sub_comm,
    show |(1000 : ℚ)| = 1000 from abs_of_pos (by norm_num),
    div_le_iff₀ (show (0 : ℚ) < 1000 by norm_num)]
  calc |x * 1000 - ((round (x * 1000) : Int) : ℚ)| ≤ 1 / 2 := h
    _ ≤ 1 / 2000 * 1000 := by norm_num

theorem foldl_depthBump_spec (events : List InteractionDepth) :
    ∀ d : DepthDistribution, 0 ≤ d.Core → 0 ≤ d.Applied → 0 ≤ d.Mastery →
      (0 ≤ (events.foldl depthBump d).Core
        ∧ 0 ≤ (events.foldl depthBump d).Applied
        ∧ 0 ≤ (events.foldl depthBump d).Mastery)
      ∧ distTotal (events.foldl depthBump d) = distTotal d + events.length := by
  induction events with
  | nil =>
    intro d h1 h2 h3
    exact ⟨⟨h1, h2, h3⟩, by simp⟩
  | cons e es ih =>
    intro d h1 h2 h3
    rw [List.foldl_cons]
    cases hd : e.depth_level with
    | Core =>
      have hb : depthBump d e = ⟨d.Core + 1, d.Applied, d.Mastery⟩ := by
        unfold depthBump
        rw [hd]
      rw [hb]
      obtain ⟨hn, ht⟩ := ih ⟨d.Core + 1, d.Applied, d.Mastery⟩
        (show (0 : ℚ) ≤ d.Core + 1 by linarith) h2 h3
      refine ⟨hn, ?_⟩
      rw [ht]
      simp only [distTotal, List.length_cons]
      push_cast
      ring
    | Applied =>
      have hb : depthBump d e = ⟨d.Core, d.Applied + 1, d.Mastery⟩ := by
        unfold depthBump
        rw [hd]
      rw [hb]
      obtain ⟨hn, ht⟩ := ih ⟨d.Core, d.Applied + 1, d.Mastery⟩ h1
        (show (0 : ℚ) ≤ d.Applied + 1 by linarith) h3
      refine ⟨hn, ?_⟩
      rw [ht]
      simp only [distTotal, List.length_cons]
      push_cast
      ring
    | Mastery =>
      have hb : depthBump d e = ⟨d.Core, d.Applied, d.Mastery + 1⟩ := by
        unfold depthBump
        rw [hd]
      rw [hb]
      obtain ⟨hn, ht⟩ := ih ⟨d.Core, d.Applied, d.Mastery + 1⟩ h1 h2
        (show (0 : ℚ) ≤ d.Mastery + 1 by linarith)
      refine ⟨hn, ?_⟩
      rw [ht]
      simp only [distTotal, List.length_cons]
      push_cast
      ring

theorem computeDepthDistribution_nonneg (events : List InteractionDepth) :
    0 ≤ (computeDepthDistribution events).Core
      ∧ 0 ≤ (computeDepthDistribution events).Applied
      ∧ 0 ≤ (computeDepthDistribution events).Mastery :=
  (foldl_depthBump_spec events depthEmpty le_rfl le_rfl le_rfl).1

/-! ### Claims -/

/-- C2: for every replayed event sequence, every topic record produced by
`recalculateAllTopics` has `masteryLevel` in `[0, 100]` after every event
(every `masteryHistory` entry, and the final level, lies in `[0, 100]`);
if every event is a success the post-event mastery sequence is
non-decreasing, and if every event is a failure it is non-increasing. -/
theorem mastery_bounds_and_monotone (events : List LearningEvent) (tp : TopicProgress)
    (hmem : tp ∈ recalculateAllTopics events) :
    ((0 ≤ tp.masteryLevel ∧ tp.masteryLevel ≤ 100)
      ∧ ∀ x ∈ tp.masteryHistory, 0 ≤ x ∧ x ≤ 100)
    ∧ ((∀ e ∈ events, e.success = true) → List.Chain' (· ≤ ·) tp.masteryHistory)
    ∧ ((∀ e ∈ events, e.success = false) →
        List.Chain' (fun a b => b ≤ a) tp.masteryHistory) := by
  rcases mem_recalculateAllTopics hmem with ⟨kv, hkv, htp⟩
  have hh : tp.masteryHistory = kv.2.masteryHistory := by
    rw [htp, applyTrendPass_masteryHistory]
  have hl : tp.masteryLevel = kv.2.masteryLevel := by
    rw [htp, applyTrendPass_masteryLevel]
  rw [hh, hl]
  obtain ⟨hb, hall⟩ := replay_bounds_inv events kv hkv
  refine ⟨⟨hb, hall⟩, ?_, ?_⟩
  · intro hs
    exact (replay_mono_inv events hs kv hkv).2.1
  · intro hs
    exact (replay_anti_inv events hs kv hkv).2.1

def c2Events : List LearningEvent :=
  [⟨"s2", "Geometry", .Core, .Learning, 1/2, true, [], 0, "u0"⟩,
   ⟨"s2", "Geometry", .Applied, .Learning, 1/2, true, [], 0, "u1"⟩,
   ⟨"s2", "Geometry", .Mastery, .Learning, 1/2, true, [], 0, "u2"⟩]

def c2Topic : TopicProgress :=
  ((recalculateAllTopics c2Events).head?).getD (freshTopicProgress "Geometry" "u0")

/-- C2 witness: the bounds/monotonicity theorem evaluated on a concrete
all-success replay. -/
theorem mastery_bounds_and_monotone_witness :
    List.Chain' (· ≤ ·) c2Topic.masteryHistory :=
  (mastery_bounds_and_monotone c2Events c2Topic
    (by
      rw [show recalculateAllTopics c2Events = [c2Topic] from rfl]
      exact List.mem_singleton_self _)).2.1 (by decide)

def eM3 : LearningEvent := ⟨"s3", "Trig", .Mastery, .Learning, 1/2, true, [], 0, "v0"⟩

def eA3 : LearningEvent := ⟨"s3", "Trig", .Applied, .Learning, 1/2, true, [], 0, "v1"⟩

/-- C3 counterexample: after a Mastery-depth success the topic's
`depthProgress` is Mastery, but a subsequent successful Applied-depth event
resets it to Applied — a strictly lower depth — so `depthProgress` is not
monotone under replay as claimed. -/
theorem depthProgress_regression_cex :
    (recalculateAllTopics [eM3]).map (fun tp => tp.depthProgress) = [DepthLevel.Mastery]
    ∧ (recalculateAllTopics [eM3, eA3]).map (fun tp => tp.depthProgress)
        = [DepthLevel.Applied]
    ∧ depthRank DepthLevel.Applied < depthRank DepthLevel.Mastery :=
  ⟨by decide, by decide, by decide⟩

/-- C3 amended: once a topic's `depthProgress` has reached Applied or
Mastery it never returns to Core under further replayed events, although a
successful Applied-depth event does lower it from Mastery to Applied. -/
theorem depthProgress_never_returns_to_core (evts extra : List LearningEvent)
    (k : String) (tp tp' : TopicProgress)
    (h1 : mapGet (evts.foldl replayFold []) k = some tp)
    (h2 : mapGet ((evts ++ extra).foldl replayFold []) k = some tp')
    (h3 : 1 ≤ depthRank tp.depthProgress) :
    1 ≤ depthRank tp'.depthProgress := by
  rw [List.foldl_append] at h2
  exact rank_preserved_fold extra (evts.foldl replayFold []) k tp tp' h1 h3 h2

def tpW3 : TopicProgress :=
  (mapGet ([eM3].foldl replayFold []) "Trig").getD (freshTopicProgress "Trig" "v0")

def tpW3' : TopicProgress :=
  (mapGet (([eM3] ++ [eA3]).foldl replayFold []) "Trig").getD (freshTopicProgress "Trig" "v0")

/-- C3 amended witness: concrete Mastery-then-Applied replay stays at rank
at least Applied. -/
theorem depthProgress_never_returns_to_core_witness :
    1 ≤ depthRank tpW3'.depthProgress :=
  depthProgress_never_returns_to_core [eM3] [eA3] "Trig" tpW3 tpW3' rfl rfl (by decide)

/-- C8: the compliance-score scenario: cheating 2, privacy 1, enforcement 0,
prompt modification 0 over 10 interactions gives severity 7, rate 0.7 and a
final score of exactly 0. -/
theorem compliance_score_scenario :
    complianceSeverity ⟨2, 0, 0, 1⟩ = 7
    ∧ complianceRate ⟨2, 0, 0, 1⟩ 10 = 7 / 10
    ∧ computeComplianceScore ⟨2, 0, 0, 1⟩ 10 = 0 := by
  refine ⟨by norm_num [complianceSeverity], by norm_num [complianceRate, complianceSeverity], ?_⟩
  norm_num [computeComplianceScore, complianceRate, complianceSeverity]

def c9Events : List LearningEvent :=
  [⟨"s1", "Fractions", .Core, .Learning, 3/5, true, [], 0, "t0"⟩,
   ⟨"s1", "Fractions", .Core, .Learning, 7/10, true, [], 0, "t1"⟩,
   ⟨"s1", "Fractions", .Core, .Learning, 4/5, true, [], 0, "t2"⟩]

/-- C9: replaying 3 successful Core-depth events with reasoning quality
0.6, 0.7, 0.8 yields masteryLevel 30, attemptCount 3, reasoningAverage 0.7
and depthProgress Core. -/
theorem core_success_replay_scenario :
    (recalculateAllTopics c9Events).map
        (fun tp => (tp.masteryLevel, tp.attemptCount, tp.reasoningAverage, tp.depthProgress))
      = [(30, 3, 7 / 10, DepthLevel.Core)] := by
  simp only [recalculateAllTopics, replayFold, mapGet, mapSet, applyEvent, freshTopicProgress,
    masteryStep, masteryDelta, depthStep, bumpDepthAttempt, applyTrendPass,
    calculateConfidenceTrend, avgInt, c9Events, List.foldl, List.find?, List.map]
  norm_num

/-- C10: the compliance and system-health scores are total (the compliance
rate divides by `max 1 totalInteractions`, so `totalInteractions = 0` is
fine) and always land in `[0, 100]` after rounding and clamping. -/
theorem scores_total_and_bounded (ethics : EthicsMetric) (totalInteractions : ℚ)
    (health : SystemHealthMetric) :
    (0 ≤ computeComplianceScore ethics totalInteractions
      ∧ computeComplianceScore ethics totalInteractions ≤ 100)
    ∧ (0 ≤ computeSystemHealthScore health ∧ computeSystemHealthScore health ≤ 100) := by
  constructor
  · exact ⟨le_max_left _ _, max_le (by norm_num) (min_le_left _ _)⟩
  · exact ⟨le_max_left _ _, max_le (by norm_num) (min_le_left _ _)⟩

/-- Field-wise agreement of two topic records on every field named by the
replay-determinism property. -/
def sameTopicFields (a b : TopicProgress) : Prop :=
  a.masteryLevel = b.masteryLevel ∧ a.attemptCount = b.attemptCount
    ∧ a.depthAttempts = b.depthAttempts ∧ a.depthProgress = b.depthProgress
    ∧ a.reasoningAverage = b.reasoningAverage ∧ a.errorFrequency = b.errorFrequency
    ∧ a.masteryHistory = b.masteryHistory ∧ a.confidenceTrend = b.confidenceTrend

/-- C1: `getStudentProgress` does not change the store state, and running it
twice on the same state returns identical results — in particular every
`TopicProgress` field listed in the property agrees between the two runs. -/
theorem replay_deterministic (st : ProgressStoreState) (sid : String) :
    (getStudentProgressRun st sid).1
        = (getStudentProgressRun (getStudentProgressRun st sid).2 sid).1
    ∧ (getStudentProgressRun st sid).2 = st
    ∧ ∀ p q, (getStudentProgressRun st sid).1 = some p →
        (getStudentProgressRun (getStudentProgressRun st sid).2 sid).1 = some q →
        List.Forall₂ sameTopicFields p.topics q.topics := by
  refine ⟨rfl, rfl, ?_⟩
  intro p q hp hq
  have hq' : (getStudentProgressRun st sid).1 = some q := hq
  rw [hp] at hq'
  obtain rfl := Option.some_inj.mp hq'
  exact List.forall₂_same.mpr (fun x _ => ⟨rfl, rfl, rfl, rfl, rfl, rfl, rfl, rfl⟩)

def w1Events : List LearningEvent :=
  [⟨"s1", "Algebra", .Core, .Learning, 1/2, true, [], 0, "w0"⟩]

def w1Seed : StudentProgress := ⟨"s1", [], 0, 0, "w0", "w0"⟩

def stW1 : ProgressStoreState := ⟨[("s1", w1Seed)], [("s1", w1Events)]⟩

def pW1 : StudentProgress := ((getStudentProgressRun stW1 "s1").1).getD w1Seed

/-- C1 witness: determinism evaluated on a concrete one-event store. -/
theorem replay_deterministic_witness :
    List.Forall₂ sameTopicFields pW1.topics pW1.topics :=
  (replay_deterministic stW1 "s1").2.2 pW1 pW1 rfl rfl

/-- C4: `query` returns exactly the indexed events whose kind passes the
filter (every kind when no filter is given) and whose parsed timestamp lies
in the inclusive range, and permuting the recorded events only permutes the
result. -/
theorem query_exact (parse : String → Option Int) (fromMs toMs : Int)
    (kinds : Option (List TKind)) (st st' : TelemetryState) :
    (∀ e, e ∈ query parse fromMs toMs kinds st ↔
        e ∈ st.events ∧ kindMatches kinds e.kind = true
          ∧ ∃ ms, parse e.timestamp = some ms ∧ fromMs ≤ ms ∧ ms ≤ toMs)
    ∧ (st.events.Perm st'.events →
        (query parse fromMs toMs kinds st).Perm (query parse fromMs toMs kinds st')) := by
  constructor
  · intro e
    rw [query, List.mem_filter]
    exact and_congr_right fun _ => queryKeep_iff parse fromMs toMs kinds e
  · intro hperm
    exact hperm.filter _

def tinyParse (s : String) : Option Int :=
  if s = "t0" then some 0 else if s = "t5" then some 5 else none

def evI4 : TelemetryEvent := ⟨.interaction, "t0", none, []⟩

def evE4 : TelemetryEvent := ⟨.ethics, "t5", none, []⟩

def stW4 : TelemetryState := ⟨[evI4, evE4]⟩

def stW4' : TelemetryState := ⟨[evE4, evI4]⟩

/-- C4 witness: query results of two permuted two-event indexes are
permutations of each other. -/
theorem query_exact_witness :
    (query tinyParse 0 100 none stW4).Perm (query tinyParse 0 100 none stW4') :=
  (query_exact tinyParse 0 100 none stW4 stW4').2 (by decide)

/-- C5: an event whose timestamp fails to parse, or parses outside the
retention window, is silently dropped: `record` returns the state and cache
unchanged (no error), the event does not appear in any later `query` if it
was not already indexed, and an unparsable-timestamp event is never returned
by `query` over any state; `query` is a total function. -/
theorem record_drops_invalid {α : Type} (parse : String → Option Int) (cutoff : Int)
    (st : TelemetryState) (c : Cache α) (e : TelemetryEvent)
    (h : parse e.timestamp = none ∨ ∃ ms, parse e.timestamp = some ms ∧ ms < cutoff) :
    record parse cutoff st c e = (st, c)
    ∧ (∀ fromMs toMs kinds, e ∉ st.events →
        e ∉ query parse fromMs toMs kinds (record parse cutoff st c e).1)
    ∧ (parse e.timestamp = none →
        ∀ fromMs toMs kinds (st2 : TelemetryState),
          e ∉ query parse fromMs toMs kinds st2) := by
  have hrec : record parse cutoff st c e = (st, c) := by
    unfold record
    rcases h with h | ⟨ms, hp, hlt⟩
    · rw [h]
    · rw [hp]
      show (if ms < cutoff then (st, c)
        else (⟨st.events ++ [e]⟩, invalidateCache c dashNS)) = (st, c)
      rw [if_pos hlt]
  refine ⟨hrec, ?_, ?_⟩
  · intro fromMs toMs kinds hne hmem
    rw [hrec] at hmem
    exact hne (List.mem_of_mem_filter hmem)
  · intro hn fromMs toMs kinds st2 hmem
    rw [query, List.mem_filter, queryKeep_iff] at hmem
    rcases hmem with ⟨_, _, ms, hms, _⟩
    rw [hn] at hms
    cases hms

def eBad : TelemetryEvent := ⟨.system_error, "not-a-date", none, []⟩

def stW5 : TelemetryState := ⟨[]⟩

def cW5 : Cache Nat := ⟨[]⟩

/-- C5 witness: recording the literal timestamp string leaves the store
unchanged and the event is absent from a subsequent query. -/
theorem record_drops_invalid_witness :
    record tinyParse 0 stW5 cW5 eBad = (stW5, cW5)
    ∧ eBad ∉ query tinyParse (-100) 100 none (record tinyParse 0 stW5 cW5 eBad).1 := by
  have h := record_drops_invalid tinyParse 0 stW5 cW5 eBad (Or.inl (by decide))
  exact ⟨h.1, h.2.1 (-100) 100 none (by decide)⟩

/-- C6: after a successful `record` the event is appended to the index,
every cache entry whose key contains the `dashboard:` pattern is gone (a
lookup misses), and entries whose keys do not contain the pattern are
untouched. -/
theorem record_invalidates_dashboard_cache {α : Type} (parse : String → Option Int)
    (cutoff : Int) (st : TelemetryState) (c : Cache α) (e : TelemetryEvent) (ms : Int)
    (hp : parse e.timestamp = some ms) (hms : cutoff ≤ ms) :
    (record parse cutoff st c e).1.events = st.events ++ [e]
    ∧ (∀ key (now : Int), strIncludes key dashNS = true →
        (getCachedMetrics now (record parse cutoff st c e).2 key).1 = none)
    ∧ (∀ key, strIncludes key dashNS = false →
        mapGet (record parse cutoff st c e).2.entries key = mapGet c.entries key) := by
  have hrec : record parse cutoff st c e = (⟨st.events ++ [e]⟩, invalidateCache c dashNS) := by
    unfold record
    rw [hp]
    show (if ms < cutoff then (st, c)
        else (⟨st.events ++ [e]⟩, invalidateCache c dashNS))
      = (⟨st.events ++ [e]⟩, invalidateCache c dashNS)
    rw [if_neg (not_lt.mpr hms)]
  refine ⟨by rw [hrec], ?_, ?_⟩
  · intro key now hkey
    rw [hrec]
    have hnone : mapGet (invalidateCache c dashNS).entries key = none := by
      show mapGet (c.entries.filter fun kv => !(strIncludes kv.1 dashNS)) key = none
      unfold mapGet
      rw [find?_filter_out key dashNS hkey]
      rfl
    unfold getCachedMetrics
    rw [hnone]
  · intro key hkey
    rw [hrec]
    show mapGet (c.entries.filter fun kv => !(strIncludes kv.1 dashNS)) key
      = mapGet c.entries key
    unfold mapGet
    rw [find?_filter_keep key dashNS hkey]

def eGood : TelemetryEvent := ⟨.interaction, "t0", none, []⟩

def stW6 : TelemetryState := ⟨[]⟩

def cW6 : Cache Nat := ⟨[("dashboard:teacher", ⟨5, 1000⟩), ("other", ⟨7, 1000⟩)]⟩

/-- C6 witness: a concrete record call invalidates the dashboard entry and
leaves the non-dashboard entry alone. -/
theorem record_invalidates_dashboard_cache_witness :
    (getCachedMetrics 0 (record tinyParse 0 stW6 cW6 eGood).2 "dashboard:teacher").1 = none
    ∧ mapGet (record tinyParse 0 stW6 cW6 eGood).2.entries "other"
        = mapGet cW6.entries "other" := by
  have h := record_invalidates_dashboard_cache tinyParse 0 stW6 cW6 eGood 0 (by decide) le_rfl
  exact ⟨h.2.1 "dashboard:teacher" 0 (by decide), h.2.2 "other" (by decide)⟩

def c7CexEvents : List InteractionDepth := [⟨.Core⟩, ⟨.Applied⟩, ⟨.Mastery⟩]

/-- C7 counterexample: with one interaction at each depth every normalized
share rounds to 0.333, so the components sum to 0.999 — farther from 1 than
1e-9 — refuting the claimed ±1e-9 bound. -/
theorem depth_distribution_sum_cex :
    0 < distTotal (computeDepthDistribution c7CexEvents)
    ∧ distTotal (normalizeDistribution (computeDepthDistribution c7CexEvents)) = 999 / 1000
    ∧ 1 / 1000000000
        < |distTotal (normalizeDistribution (computeDepthDistribution c7CexEvents)) - 1| := by
  have h : computeDepthDistribution c7CexEvents = ⟨1, 1, 1⟩ := by
    simp only [computeDepthDistribution, c7CexEvents, depthEmpty, depthBump, List.foldl]
    norm_num
  have h2 : distTotal ⟨1, 1, 1⟩ = (3 : ℚ) := by norm_num [distTotal]
  have h3 : normalizeDistribution ⟨1, 1, 1⟩ = ⟨333/1000, 333/1000, 333/1000⟩ := by
    rw [normalizeDistribution, h2]
    norm_num [toFixed3, round_eq]
  have h4 : distTotal ⟨333/1000, 333/1000, 333/1000⟩ = (999 : ℚ) / 1000 := by
    norm_num [distTotal]
  rw [h, h3, h4, h2]
  refine ⟨by norm_num, rfl, ?_⟩
  rw [show (999 : ℚ) / 1000 - 1 = -(1 / 1000) by norm_num, abs_neg,
    abs_of_nonneg (show (0 : ℚ) ≤ 1 / 1000 by norm_num)]
  norm_num

theorem distTotal_zero_eq_empty (d : DepthDistribution) (h1 : 0 ≤ d.Core)
    (h2 : 0 ≤ d.Applied) (h3 : 0 ≤ d.Mastery) (h0 : distTotal d = 0) : d = depthEmpty := by
  obtain ⟨a, b, c⟩ := d
  unfold distTotal at h0
  simp only at h0 h1 h2 h3
  unfold depthEmpty
  simp only [DepthDistribution.mk.injEq]
  refine ⟨by linarith, by linarith, by linarith⟩

/-- C7 amended: when any interactions exist the normalized components sum
to 1 within ±0.0015 (three shares each rounded to 3 decimal places, each
off by at most 0.0005); when the total is 0 all components are exactly 0. -/
theorem depth_distribution_sum_close (events : List InteractionDepth) :
    (0 < distTotal (computeDepthDistribution events) →
      |distTotal (normalizeDistribution (computeDepthDistribution events)) - 1| ≤ 3 / 2000)
    ∧ (distTotal (computeDepthDistribution events) = 0 →
      normalizeDistribution (computeDepthDistribution events) = depthEmpty) := by
  obtain ⟨hC, hA, hM⟩ := computeDepthDistribution_nonneg events
  constructor
  · intro hpos
    have ht : distTotal (computeDepthDistribution events) ≠ 0 := ne_of_gt hpos
    set d := computeDepthDistribution events with hd
    have hn : normalizeDistribution d =
        ⟨toFixed3 (d.Core / distTotal d), toFixed3 (d.Applied / distTotal d),
          toFixed3 (d.Mastery / distTotal d)⟩ := by
      rw [normalizeDistribution, if_neg ht]
    rw [hn]
    have hsum : d.Core / distTotal d + d.Applied / distTotal d + d.Mastery / distTotal d
        = 1 := by
      rw [div_add_div_same, div_add_div_same]
      exact div_self ht
    have e1 := toFixed3_close (d.Core / distTotal d)
    have e2 := toFixed3_close (d.Applied / distTotal d)
    have e3 := toFixed3_close (d.Mastery / distTotal d)
    have hdt : distTotal
        ⟨toFixed3 (d.Core / distTotal d), toFixed3 (d.Applied / distTotal d),
          toFixed3 (d.Mastery / distTotal d)⟩
        = toFixed3 (d.Core / distTotal d) + toFixed3 (d.Applied / distTotal d)
          + toFixed3 (d.Mastery / distTotal d) := rfl
    rw [hdt]
    rw [abs_le] at e1 e2 e3 ⊢
    constructor <;> linarith
  · intro h0
    rw [normalizeDistribution, if_pos h0]
    exact distTotal_zero_eq_empty _ hC hA hM h0

/-- C7 amended witness: a single Core interaction has a positive total and
its normalized components sum to 1 within the rounded bound. -/
theorem depth_distribution_sum_close_witness :
    |distTotal (normalizeDistribution (computeDepthDistribution [⟨DepthLevel.Core⟩])) - 1|
      ≤ 3 / 2000 :=
  (depth_distribution_sum_close [⟨DepthLevel.Core⟩]).1
    (by norm_num [computeDepthDistribution, depthBump, depthEmpty, distTotal, List.foldl])

end LearnFlow
